import Mathlib

/-!
Shallow embedding of the font-manager repository
(pkg/fm/manager.go, the FontInstaller file, internal/platform) in Lean 4.

Modelling conventions:
- Go strings are Lean `String`; all string algorithms are implemented over
  `String.data` (lists of characters, i.e. Unicode code points, matching Go's
  rune iteration) so that every definition kernel-evaluates.
- The font root directories are modelled one level deep, which is the layout
  the installer produces and the listing walk consumes: a root holds loose
  files and subdirectories of files.  Lists are kept in lexical order, the
  order in which filepath.Walk visits entries; file insertion is a sorted
  insert-or-overwrite, mirroring os.Create into a directory.
- File bytes are `FContent`: `.text s` models a plain byte string that is not
  a JSON string-map encoding, `.json kvs` models the bytes json.Marshal
  produces for a map[string]string (json.Unmarshal of those bytes yields the
  same map, a Go standard-library fact folded into the model).
- I/O failures that the claims do not quantify over (disk write errors,
  context cancellation) are not modelled; network fetches, source Search and
  Download, the font-cache command and net/url.Parse validation are oracle
  parameters of the environment `Env`, since their outcomes are external to
  this repository.
-/

namespace FontManager

/-! ## Character and string utilities (models of Go strings/filepath helpers) -/

def isSpaceChar (c : Char) : Bool :=
  c = ' ' || c = '\t' || c = '\n' || c = '\r' || c = '\x0b' || c = '\x0c'

def dropSpaceL : List Char → List Char
  | [] => []
  | c :: cs => if isSpaceChar c then dropSpaceL cs else c :: cs

/-- Model of Go strings.TrimSpace. -/
def trimSpace (s : String) : String :=
  String.mk (dropSpaceL ((dropSpaceL s.data.reverse).reverse))

/-- listStarts p s: p is an initial segment of s (model of strings.HasPrefix). -/
def listStarts : List Char → List Char → Bool
  | [], _ => true
  | _ :: _, [] => false
  | a :: as, b :: bs => a = b && listStarts as bs

def strStarts (p s : String) : Bool := listStarts p.data s.data

/-- Substring search: does sub occur contiguously in hay? -/
def listHasSub (sub : List Char) : List Char → Bool
  | [] => listStarts sub []
  | c :: t => listStarts sub (c :: t) || listHasSub sub t

def containsSubstr (hay sub : String) : Bool := listHasSub sub.data hay.data

/-- Split a character list at every occurrence of c (model of strings.Split
with a one-character separator). -/
def splitCh (c : Char) : List Char → List (List Char)
  | [] => [[]]
  | a :: as =>
    let r := splitCh c as
    if a = c then [] :: r
    else
      match r with
      | h :: t => (a :: h) :: t
      | [] => [[a]]

def lowCh (c : Char) : Char :=
  if 'A' ≤ c && c ≤ 'Z' then Char.ofNat (c.toNat + 32) else c

/-- Last path segment of a slash-separated name (model of filepath.Base for
the names appearing in zip archives; Base of "a/b.ttf" is "b.ttf"). -/
def baseSeg (l : List Char) : List Char :=
  match (splitCh '/' l).getLast? with
  | some seg => seg
  | none => l

/-- Characters from the final '.' on (including it) of a base name; [] when
there is no dot (model of filepath.Ext applied to a base name). -/
def extSeg : List Char → List Char
  | [] => []
  | c :: cs =>
    match extSeg cs with
    | [] => if c = '.' then c :: cs else []
    | e => e

/-- isFontFile from the installer: extension, lower-cased, is .ttf or .otf. -/
def isFontFile (name : String) : Bool :=
  let e := (extSeg (baseSeg name.data)).map lowCh
  e = ".ttf".data || e = ".otf".data

/-- Display name of a loose font file: name minus its extension
(strings.TrimSuffix(name, filepath.Ext(name))). -/
def stripExt (name : String) : String :=
  String.mk (name.data.take (name.data.length - (extSeg name.data).length))

def keepCh (c : Char) : Char :=
  if ('a' ≤ c && c ≤ 'z') || ('A' ≤ c && c ≤ 'Z') || ('0' ≤ c && c ≤ '9')
      || c = '-' || c = '_' then c
  else '-'

def dropDashL : List Char → List Char
  | [] => []
  | c :: cs => if c = '-' then dropDashL cs else c :: cs

/-- sanitizeFontName from the installer: strings.Map(keep-or-dash) then
strings.Trim(name, "-"). -/
def sanitizeFontName (s : String) : String :=
  let mapped := s.data.map keepCh
  let left := dropDashL mapped
  String.mk ((dropDashL left.reverse).reverse)

/-- The character class the spec names: [A-Za-z0-9_-]. -/
def allowedChar (c : Char) : Bool :=
  ('A' ≤ c && c ≤ 'Z') || ('a' ≤ c && c ≤ 'z') || ('0' ≤ c && c ≤ '9')
    || c = '_' || c = '-'

/-- The sanitization the spec describes, written from the spec's words:
replace every character outside [A-Za-z0-9_-] with '-', then trim all
leading and trailing '-'. -/
def sanitizeSpec (s : String) : String :=
  let mapped := s.data.map (fun c => if allowedChar c then c else '-')
  let trimmedL := mapped.dropWhile (fun c => c = '-')
  String.mk ((trimmedL.reverse.dropWhile (fun c => c = '-')).reverse)

/-- EqualFold against "LICENSE" (ASCII fold suffices for this literal). -/
def isLicenseBase (s : String) : Bool :=
  s.data.map lowCh = "license".data

def cutAtCh (c : Char) (l : List Char) : List Char :=
  match splitCh c l with
  | h :: _ => h
  | [] => l

def dropUntilSlash : List Char → List Char
  | [] => []
  | c :: cs => if c = '/' then c :: cs else dropUntilSlash cs

/-- Model of (url.Parse u).Path for http(s) URLs: strip the scheme and
authority, cut query and fragment. -/
def urlPath (s : String) : String :=
  let rest :=
    if strStarts ("http://") s then s.data.drop 7
    else if strStarts ("https://") s then s.data.drop 8
    else s.data
  String.mk (dropUntilSlash (cutAtCh '?' (cutAtCh '#' rest)))

def trimOneSuffix (s suf : String) : String :=
  if listStarts suf.data.reverse s.data.reverse then
    String.mk (s.data.take (s.data.length - suf.data.length))
  else s

/-- getFontNameFromURL from manager.go: last path segment with .zip, .ttf,
.otf suffixes trimmed in that order. -/
def getFontNameFromURL (u : String) : String :=
  let p := urlPath u
  let fname :=
    match (splitCh '/' p.data).getLast? with
    | some seg => String.mk seg
    | none => p
  trimOneSuffix (trimOneSuffix (trimOneSuffix fname (".zip")) (".ttf")) (".otf")

def isURLLike (s : String) : Bool :=
  strStarts ("http://") s || strStarts ("https://") s

def listLtCh : List Char → List Char → Bool
  | [], [] => false
  | [], _ :: _ => true
  | _ :: _, [] => false
  | a :: as, b :: bs => a < b || (a = b && listLtCh as bs)

def strLtName (a b : String) : Bool := listLtCh a.data b.data

/-! ## Data model -/

/-- Bytes of a file.  `.text` models an arbitrary byte string that is not a
JSON string-map encoding; `.json kvs` models json.Marshal of a
map[string]string (so json.Unmarshal of it recovers kvs and of `.text` fails). -/
inductive FContent where
  | text (s : String)
  | json (kvs : List (String × String))
deriving DecidableEq, Repr

/-- Bytes json.Unmarshal would decode into a map[string]string. -/
def contentJson : FContent → Option (List (String × String))
  | .json kvs => some kvs
  | .text _ => none

def jsonEnc (kvs : List (String × String)) : String :=
  "\x7b" ++ String.intercalate (",") (kvs.map fun kv => "\"" ++ kv.1 ++ "\":\"" ++ kv.2 ++ "\"") ++ "\x7d"

/-- The raw bytes of a file read with os.ReadFile. -/
def contentText : FContent → String
  | .text s => s
  | .json kvs => jsonEnc kvs

structure FFile where
  name : String
  content : FContent
deriving DecidableEq, Repr

/-- One entry of a font root directory: a loose file or a one-level
subdirectory of files (the layout the installer writes and List walks).  The
list holding entries is kept in lexical name order, which is the order
filepath.Walk visits them. -/
inductive FEntry where
  | file (f : FFile)
  | dir (name : String) (files : List FFile)
deriving DecidableEq, Repr

def entryName : FEntry → String
  | .file f => f.name
  | .dir n _ => n

/-- Font descriptor (pkg/fm Font struct); Meta is an association list with
unique keys, standing for the Go map[string]string. -/
structure Font where
  name : String
  source : String
  url : String
  meta : List (String × String)
deriving DecidableEq, Repr

/-- Map write m[k] = v on the association-list model of a Go map. -/
def metaSet (m : List (String × String)) (k v : String) : List (String × String) :=
  match m with
  | [] => [(k, v)]
  | (k', v') :: rest => if k' = k then (k, v) :: rest else (k', v') :: metaSet rest k v

/-- One entry of a zip archive handed to the installer. -/
structure ZipEntry where
  name : String
  isDir : Bool
  content : FContent
deriving DecidableEq, Repr

/-- Both font directories (platform.FontPaths); user holds the user font
root's entries, system the system root's. -/
structure MState where
  user : List FEntry
  system : List FEntry
deriving DecidableEq, Repr

/-! ## Directory primitives -/

def findFile (fs : List FFile) (n : String) : Option FFile :=
  fs.find? (fun f => f.name == n)

/-- Create-or-overwrite a file, keeping the listing in lexical order
(os.Create followed by the next walk seeing sorted entries). -/
def putFile (fs : List FFile) (n : String) (c : FContent) : List FFile :=
  match fs with
  | [] => [⟨n, c⟩]
  | f :: rest =>
    if f.name = n then ⟨n, c⟩ :: rest
    else if strLtName n f.name then ⟨n, c⟩ :: f :: rest
    else f :: putFile rest n c

def looseFiles (es : List FEntry) : List FFile :=
  es.filterMap (fun e => match e with | .file f => some f | .dir _ _ => none)

def findFirstDir : List FEntry → String → Option (List FFile)
  | [], _ => none
  | .dir dn fs :: rest, d => if dn = d then some fs else findFirstDir rest d
  | .file _ :: rest, d => findFirstDir rest d

/-- Replace the contents of the first directory named d. -/
def setFirstDir : List FEntry → String → List FFile → List FEntry
  | [], d, fs' => [.dir d fs']
  | .dir dn fs :: rest, d, fs' =>
    if dn = d then .dir d fs' :: rest else .dir dn fs :: setFirstDir rest d fs'
  | .file f :: rest, d, fs' => .file f :: setFirstDir rest d fs'

def entryInsert (es : List FEntry) (e : FEntry) : List FEntry :=
  match es with
  | [] => [e]
  | x :: rest =>
    if strLtName (entryName e) (entryName x) then e :: x :: rest
    else x :: entryInsert rest e

/-- os.MkdirAll of the per-font directory: a no-op when the directory already
exists (and when the sanitized name is empty, filepath.Join collapses the
target to the root itself). -/
def ensureDir (root : List FEntry) (d : String) : List FEntry :=
  if d = "" then root
  else
    match findFirstDir root d with
    | some _ => root
    | none => entryInsert root (.dir d [])

def fileInsert (es : List FEntry) (n : String) (c : FContent) : List FEntry :=
  match es with
  | [] => [.file ⟨n, c⟩]
  | x :: rest =>
    if entryName x = n then
      match x with
      | .file _ => .file ⟨n, c⟩ :: rest
      | .dir dn fs => .dir dn fs :: fileInsert rest n c
    else if strLtName n (entryName x) then .file ⟨n, c⟩ :: x :: rest
    else x :: fileInsert rest n c

/-- Write file n into directory d of the root ("" targets the root itself,
which is where filepath.Join puts it for an empty sanitized name). -/
def putFileAt (root : List FEntry) (d n : String) (c : FContent) : List FEntry :=
  if d = "" then fileInsert root n c
  else
    match findFirstDir root d with
    | some fs => setFirstDir root d (putFile fs n c)
    | none => root ++ [.dir d [⟨n, c⟩]]

/-- os.Stat of the per-font path succeeds: the root always exists; otherwise
some entry (file or directory) carries the name. -/
def statExists (root : List FEntry) (d : String) : Bool :=
  if d = "" then true else root.any (fun e => entryName e == d)

def findEntryNamed (root : List FEntry) (d : String) : Option FEntry :=
  root.find? (fun e => entryName e == d)

/-- The walk inside FontInstaller.IsInstalled: does the object at the
per-font path contain (or constitute) a payload file? -/
def payloadUnder (root : List FEntry) (d : String) : Bool :=
  if d = "" then
    root.any (fun e =>
      match e with
      | .file f => isFontFile f.name
      | .dir _ fs => fs.any (fun f => isFontFile f.name))
  else
    match findEntryNamed root d with
    | some (.dir _ fs) => fs.any (fun f => isFontFile f.name)
    | some (.file f) => isFontFile f.name
    | none => false

/-- Is a file named n present in directory d of the root? -/
def hasFileAt (root : List FEntry) (d n : String) : Bool :=
  if d = "" then (looseFiles root).any (fun f => f.name == n)
  else
    match findFirstDir root d with
    | some fs => fs.any (fun f => f.name == n)
    | none => false

/-! ## FontInstaller (the installer file) -/

/-- Loop guard in FontInstaller.Install: skip directories and dotfiles. -/
def skipEntry (e : ZipEntry) : Bool :=
  e.isDir || strStarts (".") (String.mk (baseSeg e.name.data))

def zipBase (e : ZipEntry) : String := String.mk (baseSeg e.name.data)

/-- An entry that sets the `installed` flag: not skipped and a font file. -/
def isPayloadEntry (e : ZipEntry) : Bool :=
  !skipEntry e && isFontFile e.name

/-- The extraction loop of FontInstaller.Install, threading the root and the
`installed` flag over the archive entries in order. -/
def extractAll (d : String) : List ZipEntry → List FEntry × Bool → List FEntry × Bool
  | [], rb => rb
  | e :: es, (root, inst) =>
    if skipEntry e then extractAll d es (root, inst)
    else
      let rb1 :=
        if isFontFile e.name then (putFileAt root d (zipBase e) e.content, true)
        else (root, inst)
      let root2 :=
        if isLicenseBase (zipBase e) then putFileAt rb1.1 d (zipBase e) e.content
        else rb1.1
      extractAll d es (root2, rb1.2)

/-- The extraction loop seen from inside the target directory: the files the
per-font directory holds after processing the entries (same branch structure
as extractAll, with putFile in place of putFileAt). -/
def extractFold : List ZipEntry → List FFile → List FFile
  | [], fs => fs
  | e :: rest, fs =>
    if skipEntry e then extractFold rest fs
    else
      let fs1 := if isFontFile e.name then putFile fs (zipBase e) e.content else fs
      let fs2 := if isLicenseBase (zipBase e) then putFile fs1 (zipBase e) e.content else fs1
      extractFold rest fs2

/-- FontInstaller.storeMetadata: .source when Source is non-empty, .metadata
when Meta is non-empty, .installed always (timestamp `now`). -/
def storeMetaAt (root : List FEntry) (d : String) (font : Font) (now : String) : List FEntry :=
  let r1 := if font.source ≠ "" then putFileAt root d (".source") (.text font.source) else root
  let r2 := if font.meta ≠ [] then putFileAt r1 d (".metadata") (.json font.meta) else r1
  putFileAt r2 d (".installed") (.text now)

/-- FontInstaller.Install over the user font root.  `data` is the downloaded
byte stream opened as a zip: `none` models bytes that are not a valid
archive.  Returns the root after the call together with the error, if any
(errors leave already-extracted files in place, as the code does). -/
def installerInstall (root : List FEntry) (font : Font)
    (data : Option (List ZipEntry)) (now : String) : List FEntry × Option String :=
  let d := sanitizeFontName font.name
  let root1 := ensureDir root d
  match data with
  | none => (root1, some ("reading zip data: zip: not a valid zip archive"))
  | some entries =>
    let (root2, inst) := extractAll d entries (root1, false)
    if !inst then (root2, some ("no valid font files found in archive"))
    else (storeMetaAt root2 d font now, none)

/-- FontInstaller.IsInstalled: the per-font path exists and a walk below it
finds at least one payload file. -/
def installerIsInstalled (root : List FEntry) (name : String) : Bool :=
  let d := sanitizeFontName name
  statExists root d && payloadUnder root d

/-! ## DefaultManager -/

/-- A registered Source: Name, Search and Download.  Search and Download are
oracle functions (the two HTTP-backed sources live outside the core);
Download yields the body parsed as a zip, `none` for bytes that are not one. -/
structure SourceModel where
  name : String
  search : String → Except String (List Font)
  download : Font → Except String (Option (List ZipEntry))

/-- Everything the manager consumes from outside the filesystem: the two
font roots (platform.GetFontPaths), the registered sources in registration
order, the direct-URL HTTP client (errors fold in request failures and
non-200 statuses), the font-cache refresh outcome, the clock, and net/url
validation (url.Parse rejects e.g. control characters). -/
structure Env where
  userDir : String
  sysDir : String
  sources : List SourceModel
  fetch : String → Except String (Option (List ZipEntry))
  cacheErr : Option String
  now : String
  urlErr : String → Option String

/-- A candidate produced by the walk in listFontsInDir: the derived font
name, the payload file's path, its directory, and that directory's files. -/
structure Cand where
  fontName : String
  path : String
  dirPath : String
  dirFiles : List FFile
deriving DecidableEq, Repr

/-- The filepath.Walk pass of listFontsInDir: every payload file, in walk
order, with the name derived from the first path component (or the file's
base name for files sitting directly in the root). -/
def walkCands (dirPath : String) (es : List FEntry) : List Cand :=
  let rootLoose := looseFiles es
  es.flatMap fun e =>
    match e with
    | .file f =>
      if isFontFile f.name then
        [⟨stripExt f.name, dirPath ++ "/" ++ f.name, dirPath, rootLoose⟩]
      else []
    | .dir dn fs =>
      fs.filterMap fun f =>
        if isFontFile f.name then
          some ⟨dn, dirPath ++ "/" ++ dn ++ "/" ++ f.name, dirPath ++ "/" ++ dn, fs⟩
        else none

/-- The "check if we already have this font" guard: keep the first candidate
per font name. -/
def dedupCands (seen : List String) : List Cand → List Cand
  | [] => []
  | c :: cs =>
    if seen.contains c.fontName then dedupCands seen cs
    else c :: dedupCands (c.fontName :: seen) cs

/-- The .source sidecar read of listFontsInDir: raw bytes, trimmed; empty
when the file is absent. -/
def readSourceOf (fs : List FFile) : String :=
  match findFile fs (".source") with
  | some f => trimSpace (contentText f.content)
  | none => ""

/-- Build the Font record for a candidate: .source (trimmed), .installed
into Meta["installed_at"], .metadata merged in, then the derived path and
directory keys. -/
def buildFont (c : Cand) : Font :=
  { name := c.fontName
    url := ""
    source := readSourceOf c.dirFiles
    meta :=
      let m1 :=
        match findFile c.dirFiles (".installed") with
        | some f => metaSet [] ("installed_at") (trimSpace (contentText f.content))
        | none => []
      let m2 :=
        match findFile c.dirFiles (".metadata") with
        | some f =>
          match contentJson f.content with
          | some kvs => kvs.foldl (fun acc kv => metaSet acc kv.1 kv.2) m1
          | none => m1
        | none => m1
      metaSet (metaSet m2 ("path") c.path) ("directory") c.dirPath }

def listFontsInDir (dirPath : String) (es : List FEntry) : List Font :=
  (dedupCands [] (walkCands dirPath es)).map buildFont

/-- DefaultManager.List: user directory walked first, then the system
directory appended (system errors are ignored; the pure model has none). -/
def mList (env : Env) (st : MState) : List Font :=
  listFontsInDir env.userDir st.user ++ listFontsInDir env.sysDir st.system

/-- DefaultManager.IsInstalled: any listed font whose sanitized name matches. -/
def mIsInstalled (env : Env) (st : MState) (name : String) : Bool :=
  (mList env st).any (fun f => sanitizeFontName f.name == sanitizeFontName name)

/-- ParseFontSpec splitting on '@' as Manager.Install redoes it: fontName is
the input itself without an '@', else the trimmed first part, and sourceName
the trimmed second part. -/
def specSplit (name : String) : String × String :=
  match splitCh '@' name.data with
  | [] => (name, "")
  | [_] => (name, "")
  | p0 :: p1 :: _ => (trimSpace (String.mk p0), trimSpace (String.mk p1))

/-- installFromSource: Search, first candidate, Download, installer, cache. -/
def sourceAttempt (env : Env) (s : SourceModel) (n : String) (st : MState) :
    MState × Option String :=
  match s.search n with
  | .error e => (st, some ("searching in " ++ s.name ++ ": " ++ e))
  | .ok [] => (st, some ("font not found in " ++ s.name))
  | .ok (f :: _) =>
    match s.download f with
    | .error e => (st, some ("downloading from " ++ s.name ++ ": " ++ e))
    | .ok data =>
      match installerInstall st.user f data env.now with
      | (root, some e) => ({ st with user := root }, some ("installing font: " ++ e))
      | (root, none) => ({ st with user := root }, env.cacheErr)

/-- The fallback loop of Install: try each source in order, stop at the
first success, remember only the last error. -/
def tryAll (env : Env) (n : String) :
    List SourceModel → MState → Option String → MState × Option String
  | [], st, last => (st, last)
  | s :: rest, st, _ =>
    match sourceAttempt env s n st with
    | (st', none) => (st', none)
    | (st', some e) => tryAll env n rest st' (some e)

def alreadyMsg (name : String) : String :=
  "font \"" ++ name ++ "\" is already installed"

def notFoundAnyMsg (name e : String) : String :=
  "font \"" ++ name ++ "\" not found in any source: " ++ e

/-- DefaultManager.Install. -/
def mInstall (env : Env) (st : MState) (name : String) : MState × Option String :=
  if mIsInstalled env st name then (st, some (alreadyMsg name))
  else if isURLLike name then
    let font : Font := ⟨getFontNameFromURL name, "url", name, []⟩
    match env.fetch name with
    | .error e => (st, some ("downloading font: " ++ e))
    | .ok data =>
      match installerInstall st.user font data env.now with
      | (root, some e) => ({ st with user := root }, some ("installing font: " ++ e))
      | (root, none) => ({ st with user := root }, env.cacheErr)
  else
    let fn := (specSplit name).1
    let sn := (specSplit name).2
    if sn ≠ "" then
      match env.sources.find? (fun s => s.name == sn) with
      | some s => sourceAttempt env s fn st
      | none => (st, some ("source \"" ++ sn ++ "\" not found"))
    else
      match tryAll env fn env.sources st none with
      | (st', some e) => (st', some (notFoundAnyMsg name e))
      | (st', none) => (st', none)

/-- The installer's verdict as a function of the archive alone: the
success/failure of FontInstaller.Install does not depend on the prior
filesystem state (only the state it leaves behind does). -/
def installErr : Option (List ZipEntry) → Option String
  | none => some ("reading zip data: zip: not a valid zip archive")
  | some entries =>
    if !entries.any isPayloadEntry then some ("no valid font files found in archive")
    else none

/-- The verdict of one installFromSource attempt, likewise a function of the
source and name alone. -/
def attemptErr (env : Env) (s : SourceModel) (n : String) : Option String :=
  match s.search n with
  | .error e => some ("searching in " ++ s.name ++ ": " ++ e)
  | .ok [] => some ("font not found in " ++ s.name)
  | .ok (f :: _) =>
    match s.download f with
    | .error e => some ("downloading from " ++ s.name ++ ": " ++ e)
    | .ok data =>
      match installErr data with
      | some e => some ("installing font: " ++ e)
      | none => env.cacheErr

/-- The state reached after running a sequence of source attempts in order
(failed attempts still leave their leftover extractions behind). -/
def foldAttempt (env : Env) (n : String) (ss : List SourceModel) (st : MState) : MState :=
  ss.foldl (fun s t => (sourceAttempt env t n s).1) st

def notInstalledMsg (name : String) : String :=
  "font \"" ++ name ++ "\" is not installed"

def protMsg (name : String) : String :=
  "cannot uninstall system font \"" ++ name ++ "\""

/-- os.RemoveAll of the directory recorded in Meta["directory"], mapped back
onto the two roots. -/
def removeDirPath (env : Env) (st : MState) (p : String) : MState :=
  if p = env.userDir then { st with user := [] }
  else if p = env.sysDir then { st with system := [] }
  else if strStarts (env.userDir ++ "/") p then
    let d := String.mk (p.data.drop (env.userDir.data.length + 1))
    { st with user := st.user.filter (fun e => entryName e ≠ d) }
  else if strStarts (env.sysDir ++ "/") p then
    let d := String.mk (p.data.drop (env.sysDir.data.length + 1))
    { st with system := st.system.filter (fun e => entryName e ≠ d) }
  else st

/-- DefaultManager.Uninstall: resolve by sanitized name against a fresh
List, protect anything whose directory lacks the user-dir prefix, remove,
and treat a cache failure as a warning only. -/
def mUninstall (env : Env) (st : MState) (name : String) : MState × Option String :=
  match (mList env st).find?
      (fun f => sanitizeFontName f.name == sanitizeFontName name) with
  | none => (st, some (notInstalledMsg name))
  | some f =>
    match f.meta.lookup ("directory") with
    | none => (st, some ("font directory information missing"))
    | some d =>
      if !strStarts env.userDir d then (st, some (protMsg name))
      else (removeDirPath env st d, none)

/-! ## InstallFromConfig -/

/-- A line ParseFontSpec skips: blank after trimming, or first non-blank
character '#'. -/
def isSkipLine (line : String) : Bool :=
  trimSpace line = "" || strStarts ("#") (trimSpace line)

/-- ParseFontSpec: skips blanks and comments, parses URL lines (url.Parse
validation via the env oracle) and name@source lines. -/
def parseFontSpec (env : Env) (line : String) : Except String (Option Font) :=
  let l := trimSpace line
  if l = "" || strStarts ("#") l then .ok none
  else if isURLLike l then
    match env.urlErr l with
    | some e => .error ("invalid URL: " ++ e)
    | none => .ok (some ⟨getFontNameFromURL l, "url", l, []⟩)
  else
    .ok (some ⟨(specSplit l).1, (specSplit l).2, "", []⟩)

/-- One loop iteration of InstallFromConfig: parse, then hand font.Name —
only the name — to Install. -/
def configLine (env : Env) (st : MState) (line : String) : MState × Option String :=
  match parseFontSpec env line with
  | .error e => (st, some e)
  | .ok none => (st, none)
  | .ok (some font) =>
    match mInstall env st font.name with
    | (st', none) => (st', none)
    | (st', some e) => (st', some ("failed to install " ++ font.name ++ ": " ++ e))

/-- The scanner loop, accumulating every per-line error in order. -/
def configLoop (env : Env) : List String → MState → MState × List String
  | [], st => (st, [])
  | l :: ls, st =>
    match configLine env st l with
    | (st1, none) => configLoop env ls st1
    | (st1, some e) =>
      let r := configLoop env ls st1
      (r.1, e :: r.2)

/-- InstallFromConfig: a single aggregate error iff any line failed. -/
def mInstallFromConfig (env : Env) (lines : List String) (st : MState) :
    MState × Option String :=
  match configLoop env lines st with
  | (st', []) => (st', none)
  | (st', es) =>
    (st', some ("encountered errors during installation: " ++ String.intercalate ("; ") es))

/-- Is a path a strict descendant of a base directory, i.e. strictly below
it (the base followed by a separator is an initial segment)?  This is the
spec's notion; the code tests only a plain string prefix. -/
def isDescendantOf (base p : String) : Bool :=
  strStarts (base ++ "/") p

/-! ## Concrete scenarios used by counterexamples and witnesses -/

def envA : Env :=
  { userDir := "/u", sysDir := "/s", sources := []
  , fetch := fun u =>
      if u = "https://example.com/MyFont.zip" then
        .ok (some [⟨"MyFont.ttf", false, .text ("F")⟩])
      else .error ("boom")
  , cacheErr := none, now := "T", urlErr := fun _ => none }

def stEmpty : MState := ⟨[], []⟩

def urlA : String := "https://example.com/MyFont.zip"

/-- A state with the same font name present in both roots. -/
def stBoth : MState :=
  ⟨[.dir ("Foo") [⟨"Foo.ttf", .text ("u")⟩, ⟨".source", .text ("usersrc")⟩]],
   [.dir ("Foo") [⟨"Foo.ttf", .text ("s")⟩, ⟨".source", .text ("syssrc")⟩]]⟩

/-- A state with a loose payload file directly in the user font root. -/
def stLoose : MState := ⟨[.file ⟨"Stray.ttf", .text ("x")⟩], []⟩

/-- A state with a font installed only under the system root. -/
def stSys : MState := ⟨[], [.dir ("Sys") [⟨"Sys.ttf", .text ("s")⟩]]⟩

/-- A source that fails every Search. -/
def srcFail : SourceModel :=
  { name := "bad", search := fun _ => .error ("simulated failure")
  , download := fun _ => .error ("unreachable") }

/-- A source that finds TestFont and serves a one-font archive. -/
def srcGood : SourceModel :=
  { name := "good"
  , search := fun n =>
      if n = "TestFont" then .ok [⟨"TestFont", "good", "", []⟩] else .ok []
  , download := fun _ => .ok (some [⟨"TestFont.ttf", false, .text ("F")⟩]) }

def envB : Env :=
  { userDir := "/u", sysDir := "/s", sources := [srcFail, srcGood]
  , fetch := fun _ => .error ("boom"), cacheErr := none, now := "T"
  , urlErr := fun _ => none }

def envC : Env := { envB with sources := [srcFail] }

def stFoo : MState := ⟨[.dir ("Foo") [⟨"Foo.ttf", .text ("x")⟩]], []⟩

end FontManager

namespace FontManager

/-! ## Helper lemmas -/

theorem strDataApp (a b : String) : (a ++ b).data = a.data ++ b.data := rfl

theorem listStarts_app_self (l r : List Char) : listStarts l (l ++ r) = true := by
  induction l with
  | nil => rfl
  | cons a as ih => simp [listStarts, ih]

theorem hasSub_of_starts (sub hay : List Char) (h : listStarts sub hay = true) :
    listHasSub sub hay = true := by
  cases hay with
  | nil => simpa [listHasSub] using h
  | cons c t => simp [listHasSub, h]

theorem hasSub_parts (x sub z : List Char) :
    listHasSub sub (x ++ (sub ++ z)) = true := by
  induction x with
  | nil => exact hasSub_of_starts _ _ (listStarts_app_self sub z)
  | cons c t ih => simp [listHasSub, ih]

theorem alreadyMsg_has (name : String) :
    containsSubstr (alreadyMsg name) ("already installed") = true := by
  have hsplit : ("\" is already installed" : String).data =
      ("\" is " : String).data ++ ("already installed" : String).data := rfl
  have h : (alreadyMsg name).data =
      (("font \"" : String).data ++ name.data ++ ("\" is " : String).data) ++
        (("already installed" : String).data ++ []) := by
    show (("font \"" ++ name) ++ "\" is already installed" : String).data = _
    rw [strDataApp, strDataApp, hsplit]
    simp
  unfold containsSubstr
  rw [h]
  exact hasSub_parts _ _ _

theorem protMsg_has (name : String) :
    containsSubstr (protMsg name) ("cannot uninstall system font") = true := by
  have h : (protMsg name).data =
      ([] : List Char) ++
        (("cannot uninstall system font" : String).data ++
          ((" \"" : String).data ++ name.data ++ ("\"" : String).data)) := by
    show (("cannot uninstall system font \"" ++ name) ++ "\"" : String).data = _
    rw [strDataApp, strDataApp]
    rfl
  unfold containsSubstr
  rw [h]
  exact hasSub_parts _ _ _

theorem notFoundAnyMsg_has (name e : String) :
    containsSubstr (notFoundAnyMsg name e) ("not found in any source") = true := by
  have hsplit : ("\" not found in any source: " : String).data =
      ("\" " : String).data ++
        (("not found in any source" : String).data ++ (": " : String).data) := rfl
  have h : (notFoundAnyMsg name e).data =
      (("font \"" : String).data ++ name.data ++ ("\" " : String).data) ++
        (("not found in any source" : String).data ++ ((": " : String).data ++ e.data)) := by
    show ((("font \"" ++ name) ++ "\" not found in any source: ") ++ e : String).data = _
    rw [strDataApp, strDataApp, strDataApp, hsplit]
    simp
  unfold containsSubstr
  rw [h]
  exact hasSub_parts _ _ _

theorem notFoundAnyMsg_wraps (name e : String) :
    containsSubstr (notFoundAnyMsg name e) e = true := by
  have h : (notFoundAnyMsg name e).data =
      (("font \"" : String).data ++ name.data ++
          ("\" not found in any source: " : String).data) ++ (e.data ++ []) := by
    show ((("font \"" ++ name) ++ "\" not found in any source: ") ++ e : String).data = _
    rw [strDataApp, strDataApp, strDataApp]
    simp
  unfold containsSubstr
  rw [h]
  exact hasSub_parts _ _ _

/-! ## Claim C1 -/

/-- C1, counterexample: for a direct-URL name the claim fails.  Installing
`https://example.com/MyFont.zip` succeeds, yet IsInstalled on that same name
is still false afterwards (the sanitized URL never matches the installed
directory's name), so the second Install does not fail with "already
installed" — it runs the whole download again and returns success. -/
theorem spec_c1_cex :
    (mInstall envA stEmpty urlA).2 = none
    ∧ mIsInstalled envA (mInstall envA stEmpty urlA).1 urlA = false
    ∧ (mInstall envA (mInstall envA stEmpty urlA).1 urlA).2 = none := by
  decide

/-- C1 amended: whenever IsInstalled(n) reports true — which after a
successful Install(n) holds for plain names whose installed entry sanitizes
back to n, but not for URL-form names — a further Install(n) fails with an
error containing "already installed" and returns before touching the
filesystem, so the state is unchanged. -/
theorem spec_c1_amended (env : Env) (st : MState) (name : String)
    (h : mIsInstalled env st name = true) :
    mInstall env st name = (st, some (alreadyMsg name))
    ∧ containsSubstr (alreadyMsg name) ("already installed") = true := by
  refine ⟨?_, alreadyMsg_has name⟩
  unfold mInstall
  simp [h]


theorem spec_c1_witness :
    mIsInstalled envA stFoo ("Foo") = true
    ∧ (mInstall envA stFoo ("Foo") = (stFoo, some (alreadyMsg ("Foo")))
        ∧ containsSubstr (alreadyMsg ("Foo")) ("already installed") = true) :=
  ⟨by decide, spec_c1_amended envA stFoo ("Foo") (by decide)⟩



/-! ## Claim C5 -/

/-- C5: InstallFromConfig on a URL line is NOT the direct-URL path on the
whole line.  With the URL `https://example.com/MyFont.zip` served by the
fetch oracle and no registered sources, InstallFromConfig over that single
line reports success while changing nothing (it calls Install with the
stripped display name "MyFont", which finds no source and returns nil),
whereas Install on the original line string downloads and installs. -/
theorem spec_c5_bug :
    mInstallFromConfig envA [urlA] stEmpty = (stEmpty, none)
    ∧ (mInstall envA stEmpty urlA).2 = none
    ∧ (mInstall envA stEmpty urlA).1 ≠ stEmpty := by
  decide

/-! ## Claim C9 -/

theorem dropDash_eq (l : List Char) :
    dropDashL l = l.dropWhile (fun c => c = '-') := by
  induction l with
  | nil => rfl
  | cons c cs ih => by_cases h : c = '-' <;> simp [dropDashL, List.dropWhile, h, ih]

theorem keep_eq (c : Char) : keepCh c = (if allowedChar c then c else '-') := by
  unfold keepCh allowedChar
  cases h1 : ('a' ≤ c && c ≤ 'z') <;> cases h2 : ('A' ≤ c && c ≤ 'Z')
    <;> cases h3 : ('0' ≤ c && c ≤ '9') <;> cases h4 : (decide (c = '-'))
    <;> cases h5 : (decide (c = '_'))
    <;> simp [h1, h2, h3, h4, h5]

/-- C9: the sanitized name used as the directory name replaces every
character outside [A-Za-z0-9_-] with '-' and then trims all leading and
trailing '-' characters: the code's sanitizeFontName coincides with that
description on every string. -/
theorem spec_c9_thm (s : String) : sanitizeFontName s = sanitizeSpec s := by
  unfold sanitizeFontName sanitizeSpec
  have hmap : s.data.map keepCh = s.data.map (fun c => if allowedChar c then c else '-') :=
    List.map_congr_left (fun c _ => keep_eq c)
  simp only [dropDash_eq, hmap]

/-! ## Claim C10 -/

/-- C10: a plain name (no URL prefix, no @-source), not installed, with an
empty source list: Install returns success and the filesystem is untouched
(the loop never runs, lastErr stays nil, and nil is returned). -/
theorem spec_c10_thm (env : Env) (st : MState) (name : String)
    (h1 : mIsInstalled env st name = false) (h2 : isURLLike name = false)
    (h3 : (specSplit name).2 = "") (h4 : env.sources = []) :
    mInstall env st name = (st, none) := by
  unfold mInstall
  simp [h1, h2, h3, h4, tryAll]

theorem spec_c10_witness : mInstall envA stEmpty ("Nope") = (stEmpty, none) :=
  spec_c10_thm envA stEmpty ("Nope") (by decide) (by decide) (by decide) rfl

/-! ## Claim C7 -/

/-- C7: the config loop skips blank and comment lines with no effect,
accumulates per-line errors in order without aborting, and
InstallFromConfig returns success exactly when the accumulated error list
is empty. -/
theorem spec_c7_thm (env : Env) :
    (∀ l lines st, isSkipLine l = true →
        configLoop env (l :: lines) st = configLoop env lines st)
    ∧ (∀ lines st,
        (mInstallFromConfig env lines st).2 = none ↔ (configLoop env lines st).2 = [])
    ∧ (∀ l lines st, configLoop env (l :: lines) st =
        ((configLoop env lines (configLine env st l).1).1,
          ((configLine env st l).2).toList ++ (configLoop env lines (configLine env st l).1).2)) := by
  refine ⟨?_, ?_, ?_⟩
  · intro l lines st h
    have hp : parseFontSpec env l = .ok none := by
      unfold parseFontSpec
      simp only [isSkipLine, Bool.or_eq_true, decide_eq_true_eq] at h
      rcases h with h | h
      · simp [h]
      · simp [h]
    simp [configLoop, configLine, hp]
  · intro lines st
    rcases hc : configLoop env lines st with ⟨st', es⟩
    cases es <;> simp [mInstallFromConfig, hc]
  · intro l lines st
    rcases hc : configLine env st l with ⟨st1, e?⟩
    cases e? <;> simp [configLoop, hc, Option.toList]

theorem spec_c7_witness :
    configLoop envA [" # note"] stEmpty = configLoop envA [] stEmpty :=
  (spec_c7_thm envA).1 (" # note") [] stEmpty (by decide)

/-! ## Map lemmas for the association-list model of Go maps -/

theorem metaSet_lookup_self (m : List (String × String)) (k v : String) :
    (metaSet m k v).lookup k = some v := by
  induction m with
  | nil => simp [metaSet, List.lookup]
  | cons kv rest ih =>
    rcases kv with ⟨k', v'⟩
    simp only [metaSet]
    by_cases h : k' = k
    · rw [if_pos h]
      subst h
      simp [List.lookup]
    · rw [if_neg h]
      have hb : (k == k') = false := beq_eq_false_iff_ne.2 (Ne.symm h)
      simp [List.lookup, hb, ih]

theorem metaSet_lookup_ne (m : List (String × String)) (k v k' : String)
    (h : k' ≠ k) : (metaSet m k v).lookup k' = m.lookup k' := by
  induction m with
  | nil =>
    have hb : (k' == k) = false := beq_eq_false_iff_ne.2 h
    simp [metaSet, List.lookup, hb]
  | cons kv rest ih =>
    rcases kv with ⟨k0, v0⟩
    simp only [metaSet]
    by_cases h0 : k0 = k
    · rw [if_pos h0]
      subst h0
      have hb : (k' == k0) = false := beq_eq_false_iff_ne.2 h
      simp [List.lookup, hb]
    · rw [if_neg h0]
      by_cases h1 : k' = k0
      · subst h1
        simp [List.lookup]
      · have hb : (k' == k0) = false := beq_eq_false_iff_ne.2 h1
        simp [List.lookup, hb, ih]

/-! ## Claim C4 -/

/-- C4, counterexample: a loose payload file directly in the user root
resolves to Meta["directory"] = the user font directory itself, which is
not a descendant of the user directory — yet Uninstall raises no protection
error and removes it, wiping the entire user root (state changes from one
entry to none). -/
theorem spec_c4_cex :
    mUninstall envA stLoose ("Stray") = (stEmpty, none)
    ∧ (((mList envA stLoose).find?
          (fun f => sanitizeFontName f.name == sanitizeFontName ("Stray"))).map
        (fun f => f.meta.lookup ("directory"))) = some (some (envA.userDir))
    ∧ isDescendantOf envA.userDir envA.userDir = false
    ∧ stLoose ≠ stEmpty := by
  decide

/-- C4 amended: the protection test is a plain string-prefix check against
the user directory, not a descendant check: when the resolved directory
lacks the user directory as a string prefix, Uninstall fails with an error
containing "cannot uninstall system font" and leaves the state unchanged;
and Uninstall only ever succeeds (and removes anything) when the prefix
holds — which allows the user directory itself (loose files) besides its
true descendants. -/
theorem spec_c4_amended (env : Env) (st : MState) (name : String) (f : Font) (d : String)
    (h1 : (mList env st).find?
        (fun g => sanitizeFontName g.name == sanitizeFontName name) = some f)
    (h2 : f.meta.lookup ("directory") = some d) :
    (strStarts env.userDir d = false →
        mUninstall env st name = (st, some (protMsg name))
        ∧ containsSubstr (protMsg name) ("cannot uninstall system font") = true)
    ∧ ((mUninstall env st name).2 = none → strStarts env.userDir d = true) := by
  constructor
  · intro h3
    refine ⟨?_, protMsg_has name⟩
    unfold mUninstall
    simp [h1, h2, h3]
  · intro h3
    by_contra hne
    have h4 : strStarts env.userDir d = false := by
      cases hx : strStarts env.userDir d
      · rfl
      · exact absurd hx hne
    unfold mUninstall at h3
    simp [h1, h2, h4] at h3

theorem spec_c4_witness :
    mUninstall envA stSys ("Sys") = (stSys, some (protMsg ("Sys")))
    ∧ containsSubstr (protMsg ("Sys")) ("cannot uninstall system font") = true :=
  (spec_c4_amended envA stSys ("Sys")
      ⟨"Sys", "", "", [("path", "/s/Sys/Sys.ttf"), ("directory", "/s/Sys")]⟩ ("/s/Sys")
      (by decide) (by decide)).1 (by decide)

/-! ## Claim C3 -/

/-- C3, counterexample: with "Foo" installed in both roots, List returns two
entries named "Foo" — there is no cross-directory merge — the user copy
first, the system copy second. -/
theorem spec_c3_cex :
    ((mList envA stBoth).filter (fun f => f.name == "Foo")).length = 2
    ∧ ((mList envA stBoth).map (fun f => f.source)) = ["usersrc", "syssrc"] := by
  decide

theorem walk_single_dir (p n : String) (fs : List FFile) :
    walkCands p [.dir n fs] = fs.filterMap (fun f =>
      if isFontFile f.name then
        some ⟨n, p ++ "/" ++ n ++ "/" ++ f.name, p ++ "/" ++ n, fs⟩
      else none) := by
  simp [walkCands, looseFiles]

theorem dedup_seen (nm : String) (cs : List Cand)
    (h : ∀ c ∈ cs, c.fontName = nm) (seen : List String)
    (hs : seen.contains nm = true) : dedupCands seen cs = [] := by
  induction cs with
  | nil => rfl
  | cons c rest ih =>
    have hc : c.fontName = nm := h c (List.mem_cons_self c rest)
    rw [dedupCands, hc, hs]
    exact ih (fun c' hc' => h c' (List.mem_cons_of_mem c hc'))

theorem single_dir_cand_names (p n : String) (fs : List FFile) :
    ∀ c ∈ fs.filterMap (fun f =>
      if isFontFile f.name then
        some (⟨n, p ++ "/" ++ n ++ "/" ++ f.name, p ++ "/" ++ n, fs⟩ : Cand)
      else none), c.fontName = n := by
  intro c hc
  rcases List.mem_filterMap.1 hc with ⟨f, _, hg⟩
  by_cases hff : isFontFile f.name
  · simp only [hff, if_pos] at hg
    rw [← Option.some_inj.1 hg]
  · simp [hff] at hg

/-- Listing a root holding exactly one directory that contains a payload
file yields exactly one Font, built from that directory's files. -/
theorem listSingleDir (p n : String) (fs : List FFile)
    (h : fs.any (fun f => isFontFile f.name) = true) :
    ∃ pf, listFontsInDir p [.dir n fs] =
      [buildFont ⟨n, p ++ "/" ++ n ++ "/" ++ pf, p ++ "/" ++ n, fs⟩] := by
  rcases hcs : fs.filterMap (fun f =>
      if isFontFile f.name then
        some (⟨n, p ++ "/" ++ n ++ "/" ++ f.name, p ++ "/" ++ n, fs⟩ : Cand)
      else none) with _ | ⟨c0, rest⟩
  · rcases List.any_eq_true.1 h with ⟨f, hf, hff⟩
    have hmem : (⟨n, p ++ "/" ++ n ++ "/" ++ f.name, p ++ "/" ++ n, fs⟩ : Cand) ∈
        fs.filterMap (fun f =>
          if isFontFile f.name then
            some (⟨n, p ++ "/" ++ n ++ "/" ++ f.name, p ++ "/" ++ n, fs⟩ : Cand)
          else none) :=
      List.mem_filterMap.2 ⟨f, hf, by simp [hff]⟩
    rw [hcs] at hmem
    exact absurd hmem (List.not_mem_nil _)
  · have hc0 : c0 ∈ fs.filterMap (fun f =>
        if isFontFile f.name then
          some (⟨n, p ++ "/" ++ n ++ "/" ++ f.name, p ++ "/" ++ n, fs⟩ : Cand)
        else none) := by
      rw [hcs]; exact List.mem_cons_self c0 rest
    rcases List.mem_filterMap.1 hc0 with ⟨f, _, hg⟩
    by_cases hff : isFontFile f.name
    · simp only [hff, if_pos] at hg
      have hc0eq : c0 = ⟨n, p ++ "/" ++ n ++ "/" ++ f.name, p ++ "/" ++ n, fs⟩ :=
        (Option.some_inj.1 hg).symm
      refine ⟨f.name, ?_⟩
      unfold listFontsInDir
      rw [walk_single_dir, hcs]
      have hrest : ∀ c ∈ rest, c.fontName = n := by
        intro c hc
        exact single_dir_cand_names p n fs c (by rw [hcs]; exact List.mem_cons_of_mem c0 hc)
      have hn0 : c0.fontName = n := by rw [hc0eq]
      rw [dedupCands]
      have hnil : (([] : List String).contains c0.fontName) = false := rfl
      rw [hnil, if_neg Bool.false_ne_true, hn0,
        dedup_seen n rest hrest [n] (by simp [List.contains_cons]), hc0eq]
      rfl
    · simp [hff] at hg

/-- C3 amended: List concatenates the user walk and the system walk with
dedup only inside each walk: a name installed in both roots yields two
entries, the user copy's first — so callers that take the first sanitized
match (IsInstalled, Uninstall) see the user copy's metadata — not one
merged entry. -/
theorem spec_c3_amended (env : Env) (n : String) (uf sf : List FFile)
    (hu : uf.any (fun f => isFontFile f.name) = true)
    (hs : sf.any (fun f => isFontFile f.name) = true) :
    ∃ fu fv, mList env ⟨[.dir n uf], [.dir n sf]⟩ = [fu, fv]
      ∧ fu.name = n ∧ fv.name = n
      ∧ fu.source = readSourceOf uf ∧ fv.source = readSourceOf sf
      ∧ fu.meta.lookup ("directory") = some (env.userDir ++ "/" ++ n)
      ∧ fv.meta.lookup ("directory") = some (env.sysDir ++ "/" ++ n) := by
  obtain ⟨pu, hlu⟩ := listSingleDir env.userDir n uf hu
  obtain ⟨ps, hls⟩ := listSingleDir env.sysDir n sf hs
  refine ⟨buildFont ⟨n, env.userDir ++ "/" ++ n ++ "/" ++ pu, env.userDir ++ "/" ++ n, uf⟩,
    buildFont ⟨n, env.sysDir ++ "/" ++ n ++ "/" ++ ps, env.sysDir ++ "/" ++ n, sf⟩,
    ?_, rfl, rfl, rfl, rfl, ?_, ?_⟩
  · unfold mList
    rw [hlu, hls]
    rfl
  · exact metaSet_lookup_self _ _ _
  · exact metaSet_lookup_self _ _ _

/-! ## Claim C6 -/

theorem extractAll_snd (d : String) :
    ∀ (es : List ZipEntry) (root : List FEntry) (b : Bool),
      (extractAll d es (root, b)).2 = (b || es.any isPayloadEntry) := by
  intro es
  induction es with
  | nil => intro root b; simp [extractAll]
  | cons e es ih =>
    intro root b
    by_cases hk : skipEntry e
    · have hp : isPayloadEntry e = false := by simp [isPayloadEntry, hk]
      simp [extractAll, hk, ih, hp]
    · by_cases hf : isFontFile e.name
      · have hp : isPayloadEntry e = true := by
          simp [isPayloadEntry, hk, hf]
        simp [extractAll, hk, hf, ih, hp]
      · have hp : isPayloadEntry e = false := by simp [isPayloadEntry, hf]
        simp [extractAll, hk, hf, ih, hp]

theorem installerInstall_snd (root : List FEntry) (font : Font)
    (data : Option (List ZipEntry)) (now : String) :
    (installerInstall root font data now).2 = installErr data := by
  unfold installerInstall installErr
  cases data with
  | none => rfl
  | some entries =>
    rcases hx : extractAll (sanitizeFontName font.name) entries
        (ensureDir root (sanitizeFontName font.name), false) with ⟨root2, inst⟩
    have hsnd : inst = entries.any isPayloadEntry := by
      have h := extractAll_snd (sanitizeFontName font.name) entries
        (ensureDir root (sanitizeFontName font.name)) false
      rw [hx] at h
      simpa using h
    simp only [hx, hsnd]
    cases hinst : entries.any isPayloadEntry <;> simp [hinst]

theorem sourceAttempt_snd (env : Env) (s : SourceModel) (n : String) (st : MState) :
    (sourceAttempt env s n st).2 = attemptErr env s n := by
  rcases hs : s.search n with e | fonts
  · simp [sourceAttempt, attemptErr, hs]
  · rcases fonts with _ | ⟨f, fs⟩
    · simp [sourceAttempt, attemptErr, hs]
    · rcases hd : s.download f with e | data
      · simp [sourceAttempt, attemptErr, hs, hd]
      · have h := installerInstall_snd st.user f data env.now
        rcases hx : installerInstall st.user f data env.now with ⟨root, err⟩
        rw [hx] at h
        simp only at h
        cases err <;> simp [sourceAttempt, attemptErr, hs, hd, hx, ← h]

theorem tryAll_succ (env : Env) (n : String) (s : SourceModel)
    (hs : attemptErr env s n = none) :
    ∀ (ss₁ ss₂ : List SourceModel) (st : MState) (last : Option String),
      (∀ t ∈ ss₁, attemptErr env t n ≠ none) →
      tryAll env n (ss₁ ++ s :: ss₂) st last =
        sourceAttempt env s n (foldAttempt env n ss₁ st) := by
  intro ss₁
  induction ss₁ with
  | nil =>
    intro ss₂ st last _
    show tryAll env n (s :: ss₂) st last = _
    have h2 := sourceAttempt_snd env s n st
    rcases hx : sourceAttempt env s n st with ⟨st', e?⟩
    rw [hx] at h2
    simp only at h2
    rw [hs] at h2
    subst h2
    simp [tryAll, hx, foldAttempt]
  | cons t ts ih =>
    intro ss₂ st last hfail
    have h2 := sourceAttempt_snd env t n st
    rcases hx : sourceAttempt env t n st with ⟨st', e?⟩
    rw [hx] at h2
    simp only at h2
    cases e? with
    | none =>
      exact absurd h2.symm (hfail t (List.mem_cons_self t ts))
    | some e =>
      show tryAll env n (t :: (ts ++ s :: ss₂)) st last = _
      have hfold : foldAttempt env n (t :: ts) st = foldAttempt env n ts st' := by
        simp [foldAttempt, hx]
      simp only [tryAll, hx]
      rw [ih ss₂ st' (some e) (fun u hu => hfail u (List.mem_cons_of_mem t hu)), hfold]

theorem tryAll_allfail (env : Env) (n : String) :
    ∀ (ss' : List SourceModel) (t : SourceModel) (st : MState) (last : Option String),
      (∀ u ∈ ss' ++ [t], attemptErr env u n ≠ none) →
      tryAll env n (ss' ++ [t]) st last =
        (foldAttempt env n (ss' ++ [t]) st, attemptErr env t n) := by
  intro ss'
  induction ss' with
  | nil =>
    intro t st last hfail
    have h2 := sourceAttempt_snd env t n st
    rcases hx : sourceAttempt env t n st with ⟨st', e?⟩
    rw [hx] at h2
    simp only at h2
    cases e? with
    | none => exact absurd h2.symm (hfail t (by simp))
    | some e =>
      show tryAll env n (t :: []) st last = _
      simp only [tryAll, hx]
      simp [tryAll, foldAttempt, hx, ← h2]
  | cons u us ih =>
    intro t st last hfail
    have h2 := sourceAttempt_snd env u n st
    rcases hx : sourceAttempt env u n st with ⟨st', e?⟩
    rw [hx] at h2
    simp only at h2
    cases e? with
    | none => exact absurd h2.symm (hfail u (by simp))
    | some e =>
      show tryAll env n (u :: (us ++ [t])) st last = _
      have hfold : foldAttempt env n (u :: (us ++ [t])) st =
          foldAttempt env n (us ++ [t]) st' := by
        simp [foldAttempt, hx]
      simp only [tryAll, hx]
      rw [ih t st' (some e) (fun v hv => hfail v (List.mem_cons_of_mem u hv)), ← hfold]
      simp [List.cons_append]

/-- C6: for a plain not-yet-installed name, Install walks the registered
sources in order: it returns the result of the first source whose attempt
(Search finds a candidate and Download/install/cache succeed) succeeds,
run in the state left by the earlier failed attempts; and when every source
fails or finds nothing, it returns a "not found in any source" error that
textually wraps the last per-source error. -/
theorem spec_c6_thm (env : Env) (st : MState) (name : String)
    (h1 : mIsInstalled env st name = false)
    (h2 : isURLLike name = false)
    (h3 : (specSplit name).2 = "") :
    (∀ ss₁ s ss₂, env.sources = ss₁ ++ s :: ss₂ →
        (∀ t ∈ ss₁, attemptErr env t (specSplit name).1 ≠ none) →
        attemptErr env s (specSplit name).1 = none →
        mInstall env st name =
          sourceAttempt env s (specSplit name).1 (foldAttempt env (specSplit name).1 ss₁ st)
        ∧ (mInstall env st name).2 = none)
    ∧ (∀ ss' t, env.sources = ss' ++ [t] →
        (∀ u ∈ env.sources, attemptErr env u (specSplit name).1 ≠ none) →
        ∃ e, attemptErr env t (specSplit name).1 = some e
          ∧ mInstall env st name =
              (foldAttempt env (specSplit name).1 env.sources st, some (notFoundAnyMsg name e))
          ∧ containsSubstr (notFoundAnyMsg name e) ("not found in any source") = true
          ∧ containsSubstr (notFoundAnyMsg name e) e = true) := by
  have hred : mInstall env st name =
      (match tryAll env (specSplit name).1 env.sources st none with
        | (st', some e) => (st', some (notFoundAnyMsg name e))
        | (st', none) => (st', none)) := by
    unfold mInstall
    simp [h1, h2, h3]
  constructor
  · intro ss₁ s ss₂ hsrc hfail hok
    have htry := tryAll_succ env (specSplit name).1 s hok ss₁ ss₂ st none hfail
    have hsnd := sourceAttempt_snd env s (specSplit name).1
      (foldAttempt env (specSplit name).1 ss₁ st)
    rcases hx : sourceAttempt env s (specSplit name).1
        (foldAttempt env (specSplit name).1 ss₁ st) with ⟨st2, e2⟩
    rw [hx] at hsnd htry
    simp only at hsnd
    rw [hok] at hsnd
    subst hsnd
    constructor
    · rw [hred, hsrc, htry]
    · rw [hred, hsrc, htry]
  · intro ss' t hsrc hfail
    rw [hsrc] at hfail
    have hlast := hfail t (by simp)
    rcases het : attemptErr env t (specSplit name).1 with _ | e
    · exact absurd het hlast
    · refine ⟨e, rfl, ?_, notFoundAnyMsg_has name e, notFoundAnyMsg_wraps name e⟩
      have htry := tryAll_allfail env (specSplit name).1 ss' t st none hfail
      rw [hred, hsrc, htry, het]

theorem spec_c6_witness :
    mInstall envB stEmpty ("TestFont") =
      sourceAttempt envB srcGood ("TestFont")
        (foldAttempt envB ("TestFont") [srcFail] stEmpty)
    ∧ (mInstall envB stEmpty ("TestFont")).2 = none :=
  (spec_c6_thm envB stEmpty ("TestFont") (by decide) (by decide) (by decide)).1
    [srcFail] srcGood [] rfl
    (by
      intro t ht
      rw [List.mem_singleton] at ht
      subst ht
      decide)
    (by decide)

/-! ## Directory-surgery lemmas for the extraction proofs -/

theorem setFirstDir_self (d : String) :
    ∀ (root : List FEntry) (fs : List FFile),
      findFirstDir root d = some fs → setFirstDir root d fs = root := by
  intro root
  induction root with
  | nil => intro fs h; simp [findFirstDir] at h
  | cons x rest ih =>
    intro fs h
    cases x with
    | file f =>
      simp only [findFirstDir] at h
      simp [setFirstDir, ih fs h]
    | dir dn fs0 =>
      by_cases hdn : dn = d
      · subst hdn
        simp only [findFirstDir, if_pos rfl] at h
        simp [setFirstDir, Option.some_inj.1 h]
      · simp only [findFirstDir, if_neg hdn] at h
        simp [setFirstDir, hdn, ih fs h]

theorem findFirstDir_set (d : String) :
    ∀ (root : List FEntry) (fs' : List FFile),
      findFirstDir (setFirstDir root d fs') d = some fs' := by
  intro root
  induction root with
  | nil => intro fs'; simp [setFirstDir, findFirstDir]
  | cons x rest ih =>
    intro fs'
    cases x with
    | file f => simp [setFirstDir, findFirstDir, ih]
    | dir dn fs0 =>
      by_cases hdn : dn = d
      · subst hdn
        simp [setFirstDir, findFirstDir]
      · simp [setFirstDir, findFirstDir, hdn, ih]

theorem setFirstDir_set (d : String) :
    ∀ (root : List FEntry) (fs' fs'' : List FFile),
      setFirstDir (setFirstDir root d fs') d fs'' = setFirstDir root d fs'' := by
  intro root
  induction root with
  | nil => intro fs' fs''; simp [setFirstDir]
  | cons x rest ih =>
    intro fs' fs''
    cases x with
    | file f => simp [setFirstDir, ih]
    | dir dn fs0 =>
      by_cases hdn : dn = d
      · subst hdn
        simp [setFirstDir]
      · simp [setFirstDir, hdn, ih]

theorem putFileAt_dir (root : List FEntry) (d n : String) (c : FContent)
    (hd : d ≠ "") (fs : List FFile) (h : findFirstDir root d = some fs) :
    putFileAt root d n c = setFirstDir root d (putFile fs n c) := by
  simp [putFileAt, hd, h]

theorem statExists_of_find (d : String) :
    ∀ (root : List FEntry) (fs : List FFile),
      findFirstDir root d = some fs →
      root.any (fun e => entryName e == d) = true := by
  intro root
  induction root with
  | nil => intro fs h; simp [findFirstDir] at h
  | cons x rest ih =>
    intro fs h
    cases x with
    | file f =>
      simp only [findFirstDir] at h
      simp [List.any_cons, ih fs h]
    | dir dn fs0 =>
      by_cases hdn : dn = d
      · simp [List.any_cons, entryName, hdn]
      · simp only [findFirstDir, if_neg hdn] at h
        simp [List.any_cons, ih fs h]

theorem looseFiles_cons_file (f : FFile) (rest : List FEntry) :
    looseFiles (.file f :: rest) = f :: looseFiles rest := by
  simp [looseFiles]

theorem looseFiles_cons_dir (dn : String) (fs0 : List FFile) (rest : List FEntry) :
    looseFiles (.dir dn fs0 :: rest) = looseFiles rest := by
  simp [looseFiles]

theorem looseFiles_set (d : String) :
    ∀ (root : List FEntry) (fs' : List FFile),
      looseFiles (setFirstDir root d fs') = looseFiles root := by
  intro root
  induction root with
  | nil => intro fs'; simp [setFirstDir, looseFiles]
  | cons x rest ih =>
    intro fs'
    cases x with
    | file f =>
      simp only [setFirstDir]
      rw [looseFiles_cons_file, looseFiles_cons_file, ih]
    | dir dn fs0 =>
      by_cases hdn : dn = d
      · subst hdn
        have hset : setFirstDir (FEntry.dir dn fs0 :: rest) dn fs' =
            FEntry.dir dn fs' :: rest := by
          simp [setFirstDir]
        rw [hset, looseFiles_cons_dir, looseFiles_cons_dir]
      · simp only [setFirstDir, if_neg hdn]
        rw [looseFiles_cons_dir, looseFiles_cons_dir, ih]

theorem looseFiles_insertDir (d : String) :
    ∀ (root : List FEntry),
      looseFiles (entryInsert root (.dir d [])) = looseFiles root := by
  intro root
  induction root with
  | nil => simp [entryInsert, looseFiles]
  | cons x rest ih =>
    by_cases hlt : strLtName (entryName (FEntry.dir d [])) (entryName x)
    · simp only [entryInsert, if_pos hlt]
      rw [looseFiles_cons_dir]
    · cases x with
      | file f =>
        simp only [entryInsert, if_neg hlt]
        rw [looseFiles_cons_file, looseFiles_cons_file, ih]
      | dir dn fs0 =>
        simp only [entryInsert, if_neg hlt]
        rw [looseFiles_cons_dir, looseFiles_cons_dir, ih]

theorem entryInsert_find (d : String) :
    ∀ (root : List FEntry), findFirstDir root d = none →
      findFirstDir (entryInsert root (.dir d [])) d = some [] := by
  intro root
  induction root with
  | nil => intro _; simp [entryInsert, findFirstDir]
  | cons x rest ih =>
    intro h
    cases x with
    | file f =>
      simp only [findFirstDir] at h
      by_cases hlt : strLtName (entryName (FEntry.dir d [])) (entryName (FEntry.file f))
      · simp [entryInsert, hlt, findFirstDir]
      · simp [entryInsert, hlt, findFirstDir, ih h]
    | dir dn fs0 =>
      have hdn : dn ≠ d := by
        intro hc
        subst hc
        simp [findFirstDir] at h
      simp only [findFirstDir, if_neg hdn] at h
      by_cases hlt : strLtName (entryName (FEntry.dir d [])) (entryName (FEntry.dir dn fs0))
      · simp [entryInsert, hlt, findFirstDir]
      · simp [entryInsert, hlt, findFirstDir, hdn, ih h]

theorem ensureDir_find (root : List FEntry) (d : String) (hd : d ≠ "") :
    findFirstDir (ensureDir root d) d = some ((findFirstDir root d).getD []) := by
  unfold ensureDir
  rw [if_neg hd]
  cases h : findFirstDir root d with
  | some fs => simp [h]
  | none => simp [entryInsert_find d root h]

theorem ensureDir_loose (root : List FEntry) (d : String) :
    looseFiles (ensureDir root d) = looseFiles root := by
  unfold ensureDir
  by_cases hd : d = ""
  · simp [hd]
  · rw [if_neg hd]
    cases h : findFirstDir root d with
    | some fs => rfl
    | none => simp [looseFiles_insertDir]

theorem findEntry_eq_findDir (d : String) :
    ∀ (root : List FEntry), (∀ f ∈ looseFiles root, f.name ≠ d) →
      findEntryNamed root d = (findFirstDir root d).map (fun fs => FEntry.dir d fs) := by
  intro root
  induction root with
  | nil => intro _; simp [findEntryNamed, findFirstDir]
  | cons x rest ih =>
    intro hclash
    cases x with
    | file f =>
      have hf : f.name ≠ d := hclash f (by rw [looseFiles_cons_file]; simp)
      have hb : (entryName (FEntry.file f) == d) = false :=
        beq_eq_false_iff_ne.2 hf
      simp only [findEntryNamed, List.find?, hb, findFirstDir]
      exact ih (fun g hg => hclash g (by rw [looseFiles_cons_file]; simp [hg]))
    | dir dn fs0 =>
      by_cases hdn : dn = d
      · subst hdn
        simp [findEntryNamed, List.find?, entryName, findFirstDir]
      · have hb : (entryName (FEntry.dir dn fs0) == d) = false :=
          beq_eq_false_iff_ne.2 hdn
        simp only [findEntryNamed, List.find?, hb, findFirstDir, if_neg hdn]
        exact ih (fun g hg => hclash g (by rw [looseFiles_cons_dir]; exact hg))

/-! ## Path-segment lemmas (zip entry base names are stable under Base) -/

theorem splitCh_ne_nil (c : Char) : ∀ l, splitCh c l ≠ [] := by
  intro l
  induction l with
  | nil => simp [splitCh]
  | cons a as ih =>
    simp only [splitCh]
    by_cases h : a = c
    · simp [h]
    · rcases hr : splitCh c as with _ | ⟨h0, t0⟩
      · exact absurd hr ih
      · simp [h, hr]

theorem splitCh_no_sep (c : Char) : ∀ l seg, seg ∈ splitCh c l → c ∉ seg := by
  intro l
  induction l with
  | nil =>
    intro seg hseg
    simp [splitCh] at hseg
    simp [hseg]
  | cons a as ih =>
    intro seg hseg
    simp only [splitCh] at hseg
    by_cases h : a = c
    · rw [if_pos h] at hseg
      rcases List.mem_cons.1 hseg with h1 | h1
      · simp [h1]
      · exact ih seg h1
    · rw [if_neg h] at hseg
      rcases hr : splitCh c as with _ | ⟨h0, t0⟩
      · exact absurd hr (splitCh_ne_nil c as)
      · rw [hr] at hseg
        rcases List.mem_cons.1 hseg with h1 | h1
        · subst h1
          intro hmem
          rcases List.mem_cons.1 hmem with h2 | h2
          · exact h h2.symm
          · exact ih h0 (by rw [hr]; exact List.mem_cons_self h0 t0) h2
        · exact ih seg (by rw [hr]; exact List.mem_cons_of_mem h0 h1)

theorem splitCh_single (c : Char) : ∀ l, c ∉ l → splitCh c l = [l] := by
  intro l
  induction l with
  | nil => intro _; rfl
  | cons a as ih =>
    intro h
    have ha : a ≠ c := fun hc => h (by rw [hc]; exact List.mem_cons_self c as)
    have has : c ∉ as := fun hc => h (List.mem_cons_of_mem a hc)
    simp only [splitCh, if_neg ha, ih has]

theorem getLast?_mem_list {α : Type} (l : List α) (a : α)
    (h : l.getLast? = some a) : a ∈ l := by
  have h2 : a ∈ l.getLast? := by rw [Option.mem_def]; exact h
  rcases List.mem_getLast?_eq_getLast h2 with ⟨hne, heq⟩
  rw [heq]
  exact List.getLast_mem hne

theorem baseSeg_no_sep (l : List Char) : '/' ∉ baseSeg l := by
  unfold baseSeg
  rcases h : (splitCh '/' l).getLast? with _ | seg
  · exact absurd (List.getLast?_eq_none_iff.1 h) (splitCh_ne_nil '/' l)
  · exact splitCh_no_sep '/' l seg (getLast?_mem_list _ _ h)

theorem baseSeg_idem (l : List Char) : baseSeg (baseSeg l) = baseSeg l := by
  conv_lhs => rw [baseSeg]
  rw [splitCh_single '/' (baseSeg l) (baseSeg_no_sep l)]
  rfl

theorem isFontFile_zipBase (e : ZipEntry) :
    isFontFile (zipBase e) = isFontFile e.name := by
  unfold isFontFile zipBase
  simp only [show (String.mk (baseSeg e.name.data)).data = baseSeg e.name.data from rfl,
    baseSeg_idem]

/-! ## putFile / extractFold content lemmas -/

theorem putFile_any (p : String → Bool) :
    ∀ (fs : List FFile) (n : String) (c : FContent),
      (putFile fs n c).any (fun f => p f.name) =
        (fs.any (fun f => p f.name) || p n) := by
  intro fs
  induction fs with
  | nil => intro n c; simp [putFile]
  | cons f rest ih =>
    intro n c
    by_cases h1 : f.name = n
    · simp only [putFile, if_pos h1, List.any_cons]
      rw [h1]
      cases p n <;> simp
    · rw [putFile, if_neg h1]
      by_cases h2 : strLtName n f.name
      · rw [if_pos h2]
        simp only [List.any_cons]
        cases p n <;> cases p f.name <;> simp
      · rw [if_neg h2]
        simp only [List.any_cons, ih]
        cases p f.name <;> cases p n <;> simp

theorem putFile_any_payload (fs : List FFile) (n : String) (c : FContent) :
    (putFile fs n c).any (fun f => isFontFile f.name) =
      (fs.any (fun f => isFontFile f.name) || isFontFile n) :=
  putFile_any isFontFile fs n c

theorem putFile_any_name (fs : List FFile) (n : String) (c : FContent) (m : String) :
    (putFile fs n c).any (fun f => f.name == m) =
      (fs.any (fun f => f.name == m) || (n == m)) :=
  putFile_any (fun s => s == m) fs n c

theorem extractFold_any_payload :
    ∀ (es : List ZipEntry) (fs : List FFile),
      (extractFold es fs).any (fun f => isFontFile f.name) =
        (fs.any (fun f => isFontFile f.name) || es.any isPayloadEntry) := by
  intro es
  induction es with
  | nil => intro fs; simp [extractFold]
  | cons e rest ih =>
    intro fs
    by_cases hk : skipEntry e
    · have hp : isPayloadEntry e = false := by simp [isPayloadEntry, hk]
      rw [extractFold, if_pos hk, ih, List.any_cons, hp]
      simp
    · have hkf : skipEntry e = false := by simpa using hk
      have hp : isPayloadEntry e = isFontFile e.name := by
        simp [isPayloadEntry, hkf]
      simp only [extractFold, if_neg hk]
      rw [ih]
      by_cases hf : isFontFile e.name
      · by_cases hl : isLicenseBase (zipBase e)
        · rw [if_pos hf, if_pos hl, putFile_any_payload, putFile_any_payload,
            isFontFile_zipBase, List.any_cons, hp, hf]
          cases hX : fs.any (fun f => isFontFile f.name) <;>
            cases hY : rest.any isPayloadEntry <;> rfl
        · rw [if_pos hf, if_neg hl, putFile_any_payload,
            isFontFile_zipBase, List.any_cons, hp, hf]
          cases hX : fs.any (fun f => isFontFile f.name) <;>
            cases hY : rest.any isPayloadEntry <;> rfl
      · have hff : isFontFile e.name = false := by simpa using hf
        by_cases hl : isLicenseBase (zipBase e)
        · rw [if_neg hf, if_pos hl, putFile_any_payload,
            isFontFile_zipBase, List.any_cons, hp, hff]
          cases hX : fs.any (fun f => isFontFile f.name) <;>
            cases hY : rest.any isPayloadEntry <;> rfl
        · rw [if_neg hf, if_neg hl, List.any_cons, hp, hff]
          cases hX : fs.any (fun f => isFontFile f.name) <;>
            cases hY : rest.any isPayloadEntry <;> rfl

theorem extractFold_name_mem (n : String) :
    ∀ (es : List ZipEntry) (fs : List FFile),
      fs.any (fun f => f.name == n) = true →
      (extractFold es fs).any (fun f => f.name == n) = true := by
  intro es
  induction es with
  | nil => intro fs h; simpa [extractFold] using h
  | cons e rest ih =>
    intro fs h
    by_cases hk : skipEntry e
    · rw [extractFold, if_pos hk]
      exact ih fs h
    · simp only [extractFold, if_neg hk]
      apply ih
      by_cases hf : isFontFile e.name
      · by_cases hl : isLicenseBase (zipBase e)
        · rw [if_pos hf, if_pos hl, putFile_any_name, putFile_any_name, h]
          simp
        · rw [if_pos hf, if_neg hl, putFile_any_name, h]
          simp
      · by_cases hl : isLicenseBase (zipBase e)
        · rw [if_neg hf, if_pos hl, putFile_any_name, h]
          simp
        · rw [if_neg hf, if_neg hl]
          exact h

theorem extractFold_license_mem :
    ∀ (es : List ZipEntry) (fs : List FFile) (e : ZipEntry), e ∈ es →
      skipEntry e = false → isLicenseBase (zipBase e) = true →
      (extractFold es fs).any (fun f => f.name == zipBase e) = true := by
  intro es
  induction es with
  | nil => intro fs e he; simp at he
  | cons e0 rest ih =>
    intro fs e he hk hl
    rcases List.mem_cons.1 he with h1 | h1
    · subst h1
      have hknt : ¬skipEntry e = true := by simp [hk]
      simp only [extractFold, if_neg hknt]
      apply extractFold_name_mem
      by_cases hf : isFontFile e.name
      · rw [if_pos hf, if_pos hl, putFile_any_name]
        simp
      · rw [if_neg hf, if_pos hl, putFile_any_name]
        simp
    · by_cases hk0 : skipEntry e0
      · rw [extractFold, if_pos hk0]
        exact ih fs e h1 hk hl
      · simp only [extractFold, if_neg hk0]
        exact ih _ e h1 hk hl

/-- The state form of the extraction loop: with the target directory in
place, extractAll rewrites exactly that directory's contents to the
extractFold view and leaves everything else alone. -/
theorem extractAll_fst (d : String) (hd : d ≠ "") :
    ∀ (es : List ZipEntry) (root : List FEntry) (b : Bool) (fs : List FFile),
      findFirstDir root d = some fs →
      (extractAll d es (root, b)).1 = setFirstDir root d (extractFold es fs) := by
  intro es
  induction es with
  | nil =>
    intro root b fs h
    simp [extractAll, extractFold, setFirstDir_self d root fs h]
  | cons e rest ih =>
    intro root b fs h
    by_cases hk : skipEntry e
    · rw [extractAll, if_pos hk, extractFold, if_pos hk]
      exact ih root b fs h
    · simp only [extractAll, if_neg hk, extractFold]
      by_cases hf : isFontFile e.name
      · by_cases hl : isLicenseBase (zipBase e)
        · rw [if_pos hf, if_pos hl]
          simp only [if_pos hf, if_pos hl]
          rw [putFileAt_dir root d (zipBase e) e.content hd fs h,
            putFileAt_dir _ d (zipBase e) e.content hd (putFile fs (zipBase e) e.content)
              (findFirstDir_set d root _),
            setFirstDir_set d root,
            ih _ true _ (findFirstDir_set d root _), setFirstDir_set d root]
        · rw [if_pos hf, if_neg hl]
          simp only [if_pos hf, if_neg hl]
          rw [putFileAt_dir root d (zipBase e) e.content hd fs h,
            ih _ true _ (findFirstDir_set d root _), setFirstDir_set d root]
      · by_cases hl : isLicenseBase (zipBase e)
        · rw [if_neg hf, if_pos hl]
          simp only [if_neg hf, if_pos hl]
          rw [putFileAt_dir root d (zipBase e) e.content hd fs h,
            ih _ b _ (findFirstDir_set d root _), setFirstDir_set d root]
        · rw [if_neg hf, if_neg hl]
          simp only [if_neg hf, if_neg hl]
          exact ih root b fs h

/-! ## Claim C2 -/

theorem anyPayload_false (data : List ZipEntry)
    (h1 : ∀ e ∈ data, e.isDir = false → isFontFile e.name = false) :
    data.any isPayloadEntry = false := by
  rw [List.any_eq_false]
  intro e he
  by_cases hdir : e.isDir = true
  · simp [isPayloadEntry, skipEntry, hdir]
  · have hdf : e.isDir = false := by simpa using hdir
    simp [isPayloadEntry, h1 e he hdf]

theorem installerInstall_noPayload (root : List FEntry) (font : Font)
    (data : List ZipEntry) (now : String)
    (hd : sanitizeFontName font.name ≠ "")
    (hnp : data.any isPayloadEntry = false) :
    installerInstall root font (some data) now =
      (setFirstDir (ensureDir root (sanitizeFontName font.name)) (sanitizeFontName font.name)
          (extractFold data ((findFirstDir root (sanitizeFontName font.name)).getD [])),
        some ("no valid font files found in archive")) := by
  have hfind := ensureDir_find root (sanitizeFontName font.name) hd
  have hfst := extractAll_fst (sanitizeFontName font.name) hd data
    (ensureDir root (sanitizeFontName font.name)) false _ hfind
  have hsnd := extractAll_snd (sanitizeFontName font.name) data
    (ensureDir root (sanitizeFontName font.name)) false
  rcases hx : extractAll (sanitizeFontName font.name) data
      (ensureDir root (sanitizeFontName font.name), false) with ⟨r2, i2⟩
  rw [hx] at hfst hsnd
  simp only at hfst hsnd
  rw [hnp] at hsnd
  simp only [Bool.or_false] at hsnd
  subst hsnd
  subst hfst
  unfold installerInstall
  simp only [hx]
  simp

/-- C2: when a valid archive contains no .ttf/.otf file (a license-only
archive in particular) and the font is not already installed (and no plain
file occupies the target path — a directory could not be created there
otherwise), Installer.Install fails with "no valid font files found in
archive", the per-font directory exists afterwards, every extracted LICENSE
file remains in place, and installer-level IsInstalled returns false. -/
theorem spec_c2_thm (root : List FEntry) (font : Font) (data : List ZipEntry) (now : String)
    (hd : sanitizeFontName font.name ≠ "")
    (h1 : ∀ e ∈ data, e.isDir = false → isFontFile e.name = false)
    (h2 : installerIsInstalled root font.name = false)
    (hclash : ∀ f ∈ looseFiles root, f.name ≠ sanitizeFontName font.name) :
    (installerInstall root font (some data) now).2 = some ("no valid font files found in archive")
    ∧ containsSubstr ("no valid font files found in archive") ("no valid font files found") = true
    ∧ statExists (installerInstall root font (some data) now).1 (sanitizeFontName font.name) = true
    ∧ (∀ e ∈ data, skipEntry e = false → isLicenseBase (zipBase e) = true →
        hasFileAt (installerInstall root font (some data) now).1 (sanitizeFontName font.name)
          (zipBase e) = true)
    ∧ installerIsInstalled (installerInstall root font (some data) now).1 font.name = false := by
  have hnp : data.any isPayloadEntry = false := anyPayload_false data h1
  have heq := installerInstall_noPayload root font data now hd hnp
  have hfs0 : ((findFirstDir root (sanitizeFontName font.name)).getD []).any
      (fun f => isFontFile f.name) = false := by
    cases hfd : findFirstDir root (sanitizeFontName font.name) with
    | none => simp
    | some fs =>
      have hstat : statExists root (sanitizeFontName font.name) = true := by
        rw [statExists, if_neg hd]
        exact statExists_of_find _ root fs hfd
      have hpu : payloadUnder root (sanitizeFontName font.name) = false := by
        have h2' := h2
        simp only [installerIsInstalled] at h2'
        rw [hstat] at h2'
        simpa using h2'
      simp only [payloadUnder, if_neg hd] at hpu
      rw [findEntry_eq_findDir _ root hclash, hfd] at hpu
      simpa using hpu
  have hF : (extractFold data ((findFirstDir root (sanitizeFontName font.name)).getD [])).any
      (fun f => isFontFile f.name) = false := by
    rw [extractFold_any_payload, hfs0, hnp]
    rfl
  refine ⟨by rw [heq], by decide, ?_, ?_, ?_⟩
  · rw [heq, statExists, if_neg hd]
    exact statExists_of_find _ _ _ (findFirstDir_set _ _ _)
  · intro e he hk hl
    rw [heq, hasFileAt, if_neg hd, findFirstDir_set]
    exact extractFold_license_mem data _ e he hk hl
  · rw [heq]
    unfold installerIsInstalled
    have hcl1 : ∀ f ∈ looseFiles (setFirstDir (ensureDir root (sanitizeFontName font.name))
        (sanitizeFontName font.name)
        (extractFold data ((findFirstDir root (sanitizeFontName font.name)).getD []))),
        f.name ≠ sanitizeFontName font.name := by
      intro f hf
      rw [looseFiles_set, ensureDir_loose] at hf
      exact hclash f hf
    simp only [payloadUnder, if_neg hd]
    rw [findEntry_eq_findDir _ _ hcl1, findFirstDir_set]
    simp [hF]

theorem spec_c2_witness :
    (installerInstall [] ⟨"Foo", "", "", []⟩
        (some [⟨"LICENSE", false, .text ("MIT")⟩]) ("T")).2 =
      some ("no valid font files found in archive")
    ∧ containsSubstr ("no valid font files found in archive")
        ("no valid font files found") = true
    ∧ statExists (installerInstall [] ⟨"Foo", "", "", []⟩
        (some [⟨"LICENSE", false, .text ("MIT")⟩]) ("T")).1
        (sanitizeFontName ("Foo")) = true
    ∧ (∀ e ∈ [(⟨"LICENSE", false, .text ("MIT")⟩ : ZipEntry)],
        skipEntry e = false → isLicenseBase (zipBase e) = true →
        hasFileAt (installerInstall [] ⟨"Foo", "", "", []⟩
          (some [⟨"LICENSE", false, .text ("MIT")⟩]) ("T")).1
          (sanitizeFontName ("Foo")) (zipBase e) = true)
    ∧ installerIsInstalled (installerInstall [] ⟨"Foo", "", "", []⟩
        (some [⟨"LICENSE", false, .text ("MIT")⟩]) ("T")).1 ("Foo") = false :=
  spec_c2_thm [] ⟨"Foo", "", "", []⟩ [⟨"LICENSE", false, .text ("MIT")⟩] ("T")
    (by decide)
    (by intro e he; fin_cases he; decide)
    (by decide)
    (by intro f hf; simp [looseFiles] at hf)

/-! ## Claim C8 -/

theorem findFile_putFile_self (fs : List FFile) (n : String) (c : FContent) :
    findFile (putFile fs n c) n = some ⟨n, c⟩ := by
  induction fs with
  | nil => simp [putFile, findFile, List.find?]
  | cons f rest ih =>
    by_cases h1 : f.name = n
    · simp [putFile, h1, findFile, List.find?]
    · rw [putFile, if_neg h1]
      by_cases h2 : strLtName n f.name
      · rw [if_pos h2]
        simp [findFile, List.find?]
      · rw [if_neg h2]
        have hb : (f.name == n) = false := beq_eq_false_iff_ne.2 h1
        simp only [findFile, List.find?, hb]
        exact ih

theorem findFile_putFile_ne (fs : List FFile) (n : String) (c : FContent)
    (m : String) (h : m ≠ n) :
    findFile (putFile fs n c) m = findFile fs m := by
  have hb : (n == m) = false := beq_eq_false_iff_ne.2 (Ne.symm h)
  induction fs with
  | nil => simp [putFile, findFile, List.find?, hb]
  | cons f rest ih =>
    by_cases h1 : f.name = n
    · rw [putFile, if_pos h1]
      simp only [findFile, List.find?, hb, h1]
    · rw [putFile, if_neg h1]
      by_cases h2 : strLtName n f.name
      · rw [if_pos h2]
        simp only [findFile, List.find?, hb]
      · rw [if_neg h2]
        cases hf : (f.name == m) with
        | true => simp only [findFile, List.find?, hf]
        | false =>
          simp only [findFile, List.find?, hf]
          exact ih

theorem foldl_metaSet_notmem (meta : List (String × String)) :
    ∀ (m0 : List (String × String)) (k : String), (∀ kv ∈ meta, kv.1 ≠ k) →
      (meta.foldl (fun acc kv => metaSet acc kv.1 kv.2) m0).lookup k = m0.lookup k := by
  induction meta with
  | nil => intro m0 k _; rfl
  | cons kv0 rest ih =>
    intro m0 k h
    rw [List.foldl_cons, ih (metaSet m0 kv0.1 kv0.2) k
      (fun kv hkv => h kv (List.mem_cons_of_mem kv0 hkv))]
    exact metaSet_lookup_ne m0 kv0.1 kv0.2 k
      (fun hc => h kv0 (List.mem_cons_self kv0 rest) hc.symm)

theorem foldl_metaSet_lookup (meta : List (String × String)) :
    ∀ (m0 : List (String × String)) (k v : String), (meta.map Prod.fst).Nodup →
      meta.lookup k = some v →
      (meta.foldl (fun acc kv => metaSet acc kv.1 kv.2) m0).lookup k = some v := by
  induction meta with
  | nil => intro m0 k v _ hlook; simp [List.lookup] at hlook
  | cons kv0 rest ih =>
    intro m0 k v hnd hlook
    rcases kv0 with ⟨k0, v0⟩
    simp only [List.map_cons, List.nodup_cons] at hnd
    by_cases hk : k = k0
    · subst hk
      have hv : v0 = v := by
        simpa [List.lookup] using hlook
      rw [List.foldl_cons,
        foldl_metaSet_notmem rest (metaSet m0 k v0) k
          (fun kv hkv hc => hnd.1 (List.mem_map.2 ⟨kv, hkv, hc⟩)),
        metaSet_lookup_self, hv]
    · have hb : (k == k0) = false := beq_eq_false_iff_ne.2 hk
      have hlook' : rest.lookup k = some v := by
        simpa [List.lookup, hb] using hlook
      rw [List.foldl_cons]
      exact ih (metaSet m0 k0 v0) k v hnd.2 hlook'

theorem putFileAt_single (d : String) (hd : d ≠ "") (fs : List FFile)
    (n : String) (c : FContent) :
    putFileAt [FEntry.dir d fs] d n c = [FEntry.dir d (putFile fs n c)] := by
  simp [putFileAt, hd, findFirstDir, setFirstDir]

/-- The success path of FontInstaller.Install from an empty user root:
the per-font directory ends up holding the extraction result plus the three
sidecar files, written in storeMetadata's order. -/
theorem installerInstall_empty_succ (font : Font) (data : List ZipEntry) (now : String)
    (hd : sanitizeFontName font.name ≠ "") (hsrc : font.source ≠ "")
    (hmeta : font.meta ≠ []) (hpay : data.any isPayloadEntry = true) :
    installerInstall [] font (some data) now =
      ([FEntry.dir (sanitizeFontName font.name)
          (putFile (putFile (putFile (extractFold data []) (".source") (.text font.source))
              (".metadata") (.json font.meta)) (".installed") (.text now))], none) := by
  have hens : ensureDir [] (sanitizeFontName font.name) =
      [FEntry.dir (sanitizeFontName font.name) []] := by
    simp [ensureDir, hd, findFirstDir, entryInsert]
  have hfind : findFirstDir (ensureDir [] (sanitizeFontName font.name))
      (sanitizeFontName font.name) = some [] := by
    rw [hens]
    simp [findFirstDir]
  have hfst := extractAll_fst (sanitizeFontName font.name) hd data
    (ensureDir [] (sanitizeFontName font.name)) false [] hfind
  have hsnd := extractAll_snd (sanitizeFontName font.name) data
    (ensureDir [] (sanitizeFontName font.name)) false
  rcases hx : extractAll (sanitizeFontName font.name) data
      (ensureDir [] (sanitizeFontName font.name), false) with ⟨r2, i2⟩
  rw [hx] at hfst hsnd
  simp only at hfst hsnd
  rw [hpay] at hsnd
  simp only [Bool.false_or] at hsnd
  subst hsnd
  rw [hens] at hfst
  have hset : setFirstDir [FEntry.dir (sanitizeFontName font.name) []]
      (sanitizeFontName font.name) (extractFold data []) =
      [FEntry.dir (sanitizeFontName font.name) (extractFold data [])] := by
    simp [setFirstDir]
  rw [hset] at hfst
  subst hfst
  unfold installerInstall
  simp only [hx]
  rw [if_neg (by simp)]
  rw [storeMetaAt, if_pos hsrc, if_pos hmeta,
    putFileAt_single _ hd, putFileAt_single _ hd, putFileAt_single _ hd]

/-- C8, counterexample: installing a Font named "Foo" with Source "url "
and Meta mapping "path" to "X" from an archive holding Foo.ttf succeeds, but the
subsequent List returns Source "url" (the sidecar read trims whitespace) and
Meta["path"] = the derived on-disk path, not "X" (derived keys overwrite) —
so neither "Source equals exactly" nor "Meta contains every pair" holds. -/
theorem spec_c8_cex :
    (installerInstall [] ⟨"Foo", "url ", "", [("path", "X")]⟩
        (some [⟨"Foo.ttf", false, .text ("x")⟩]) ("T")).2 = none
    ∧ ((mList envA ⟨(installerInstall [] ⟨"Foo", "url ", "", [("path", "X")]⟩
          (some [⟨"Foo.ttf", false, .text ("x")⟩]) ("T")).1, []⟩).map
        (fun f => (f.source, f.meta.lookup ("path")))) =
        [("url", some ("/u/Foo/Foo.ttf"))]
    ∧ ("url" : String) ≠ "url "
    ∧ (some ("/u/Foo/Foo.ttf") : Option String) ≠ some ("X") := by
  decide

/-- C8 amended: for a Font with non-empty Source carrying no surrounding
whitespace, non-empty Meta (unique keys, and no "path"/"directory" keys of
its own — the derived keys overwrite those), a non-empty sanitized name,
and a successful archive install into an empty user root, a subsequent List
returns exactly one entry: its Source equals the installed Source, its Meta
contains every installed key/value pair, and the derived "path" and
"directory" keys are present. -/
theorem spec_c8_amended (env : Env) (font : Font) (data : List ZipEntry)
    (hd : sanitizeFontName font.name ≠ "")
    (hsrc : font.source ≠ "") (htrim : trimSpace font.source = font.source)
    (hmeta : font.meta ≠ []) (hnodup : (font.meta.map Prod.fst).Nodup)
    (hpath : font.meta.lookup ("path") = none)
    (hdirk : font.meta.lookup ("directory") = none)
    (hok : (installerInstall [] font (some data) env.now).2 = none) :
    ∃ f, mList env ⟨(installerInstall [] font (some data) env.now).1, []⟩ = [f]
      ∧ f.name = sanitizeFontName font.name
      ∧ f.source = font.source
      ∧ (∀ k v, font.meta.lookup k = some v → f.meta.lookup k = some v)
      ∧ (∃ p, f.meta.lookup ("path") = some p)
      ∧ f.meta.lookup ("directory") =
          some (env.userDir ++ "/" ++ sanitizeFontName font.name) := by
  have hpay : data.any isPayloadEntry = true := by
    have h := installerInstall_snd [] font (some data) env.now
    rw [hok] at h
    cases hp : data.any isPayloadEntry with
    | false => simp [installErr, hp] at h
    | true => rfl
  have heq := installerInstall_empty_succ font data env.now hd hsrc hmeta hpay
  set F3 := putFile (putFile (putFile (extractFold data []) (".source") (.text font.source))
      (".metadata") (.json font.meta)) (".installed") (.text env.now) with hF3
  have hr1 : (installerInstall [] font (some data) env.now).1 =
      [FEntry.dir (sanitizeFontName font.name) F3] := by
    rw [heq]
  have hFpay : F3.any (fun f => isFontFile f.name) = true := by
    rw [hF3, putFile_any_payload, putFile_any_payload, putFile_any_payload,
      extractFold_any_payload, hpay]
    decide
  obtain ⟨pf, hlist⟩ := listSingleDir env.userDir (sanitizeFontName font.name) F3 hFpay
  have hfsrc : findFile F3 (".source") = some ⟨".source", .text font.source⟩ := by
    rw [hF3, findFile_putFile_ne _ _ _ _ (by decide),
      findFile_putFile_ne _ _ _ _ (by decide), findFile_putFile_self]
  have hfmeta : findFile F3 (".metadata") = some ⟨".metadata", .json font.meta⟩ := by
    rw [hF3, findFile_putFile_ne _ _ _ _ (by decide), findFile_putFile_self]
  have hfinst : findFile F3 (".installed") = some ⟨".installed", .text env.now⟩ := by
    rw [hF3, findFile_putFile_self]
  refine ⟨buildFont ⟨sanitizeFontName font.name,
      env.userDir ++ "/" ++ sanitizeFontName font.name ++ "/" ++ pf,
      env.userDir ++ "/" ++ sanitizeFontName font.name, F3⟩, ?_, rfl, ?_, ?_, ?_, ?_⟩
  · unfold mList
    rw [hr1, hlist]
    rfl
  · show readSourceOf F3 = font.source
    rw [readSourceOf, hfsrc]
    simpa [contentText] using htrim
  · intro k v hkv
    have hkp : k ≠ "path" := by
      intro hc
      rw [hc, hpath] at hkv
      exact Option.noConfusion hkv
    have hkd : k ≠ "directory" := by
      intro hc
      rw [hc, hdirk] at hkv
      exact Option.noConfusion hkv
    show (buildFont _).meta.lookup k = some v
    simp only [buildFont, hfsrc, hfmeta, hfinst, contentJson]
    rw [metaSet_lookup_ne _ _ _ _ hkd, metaSet_lookup_ne _ _ _ _ hkp]
    exact foldl_metaSet_lookup font.meta _ k v hnodup hkv
  · refine ⟨env.userDir ++ "/" ++ sanitizeFontName font.name ++ "/" ++ pf, ?_⟩
    show (buildFont _).meta.lookup ("path") = _
    simp only [buildFont, hfsrc, hfmeta, hfinst, contentJson]
    rw [metaSet_lookup_ne _ _ _ _ (by decide), metaSet_lookup_self]
  · show (buildFont _).meta.lookup ("directory") = _
    simp only [buildFont, hfsrc, hfmeta, hfinst, contentJson]
    rw [metaSet_lookup_self]

theorem spec_c8_witness :
    ∃ f, mList envA ⟨(installerInstall [] ⟨"Foo", "url", "", [("k", "v")]⟩
          (some [⟨"Foo.ttf", false, .text ("x")⟩]) envA.now).1, []⟩ = [f]
      ∧ f.name = sanitizeFontName ("Foo")
      ∧ f.source = "url"
      ∧ (∀ k v, ([("k", "v")] : List (String × String)).lookup k = some v →
          f.meta.lookup k = some v)
      ∧ (∃ p, f.meta.lookup ("path") = some p)
      ∧ f.meta.lookup ("directory") =
          some (envA.userDir ++ "/" ++ sanitizeFontName ("Foo")) :=
  spec_c8_amended envA ⟨"Foo", "url", "", [("k", "v")]⟩
    [⟨"Foo.ttf", false, .text ("x")⟩]
    (by decide) (by decide) (by decide) (by decide) (by decide)
    (by decide) (by decide) (by decide)

theorem spec_c3_witness :
    ∃ fu fv, mList envA ⟨[.dir ("Foo") [⟨"Foo.ttf", .text ("u")⟩]],
        [.dir ("Foo") [⟨"Foo.ttf", .text ("s")⟩]]⟩ = [fu, fv]
      ∧ fu.name = "Foo" ∧ fv.name = "Foo"
      ∧ fu.source = readSourceOf [⟨"Foo.ttf", .text ("u")⟩]
      ∧ fv.source = readSourceOf [⟨"Foo.ttf", .text ("s")⟩]
      ∧ fu.meta.lookup ("directory") = some (envA.userDir ++ "/" ++ "Foo")
      ∧ fv.meta.lookup ("directory") = some (envA.sysDir ++ "/" ++ "Foo") :=
  spec_c3_amended envA ("Foo") [⟨"Foo.ttf", .text ("u")⟩] [⟨"Foo.ttf", .text ("s")⟩]
    (by decide) (by decide)

end FontManager
